import Mathlib

/- Verification development for the CashCalendarAPI recurrence-projection and
balance-aggregation engine.  The definitions below are a shallow embedding of
the program: `runProjectionCore` embeds `engine.run_projection`,
`getCalendarData` embeds `engine.get_calendar_data`,
`deleteScheduledTransaction` embeds `database.delete_scheduled_transaction`
together with the `ON DELETE SET NULL` foreign-key action declared in
`database.create_tables`, and `calendarDataEndpoint` embeds the
`/api/calendar_data` route of `app.py`.  Calendar dates are year/month/day
triples ordered chronologically (lexicographically); date stepping follows
`dateutil.relativedelta` (day-of-month clamping for month steps).  SQL `REAL`
amounts are modelled exactly as rationals and `INTEGER` flags as integers. -/

structure Date where
  year : Nat
  month : Nat
  day : Nat
deriving DecidableEq

def isLeapYear (y : Nat) : Bool :=
  y % 4 == 0 && (y % 100 != 0 || y % 400 == 0)

def daysInMonth (y : Nat) (m : Nat) : Nat :=
  if m = 2 then (if isLeapYear y then 29 else 28)
  else if m = 4 ∨ m = 6 ∨ m = 9 ∨ m = 11 then 30
  else 31

def Date.Valid (a : Date) : Prop :=
  1 ≤ a.month ∧ a.month ≤ 12 ∧ 1 ≤ a.day ∧ a.day ≤ daysInMonth a.year a.month

instance (a : Date) : Decidable a.Valid :=
  inferInstanceAs (Decidable (1 ≤ a.month ∧ a.month ≤ 12 ∧ 1 ≤ a.day ∧
    a.day ≤ daysInMonth a.year a.month))

def Date.lt (a b : Date) : Prop :=
  a.year < b.year ∨ (a.year = b.year ∧
    (a.month < b.month ∨ (a.month = b.month ∧ a.day < b.day)))

def Date.le (a b : Date) : Prop :=
  a.year < b.year ∨ (a.year = b.year ∧
    (a.month < b.month ∨ (a.month = b.month ∧ a.day ≤ b.day)))

instance : LT Date := ⟨Date.lt⟩

instance : LE Date := ⟨Date.le⟩

instance (a b : Date) : Decidable (a < b) :=
  inferInstanceAs (Decidable (a.year < b.year ∨ (a.year = b.year ∧
    (a.month < b.month ∨ (a.month = b.month ∧ a.day < b.day)))))

instance (a b : Date) : Decidable (a ≤ b) :=
  inferInstanceAs (Decidable (a.year < b.year ∨ (a.year = b.year ∧
    (a.month < b.month ∨ (a.month = b.month ∧ a.day ≤ b.day)))))

/- Linearisation of a date used as a loop variant: months have at most 31 days
and `372 = 12 * 31`, so for valid dates this is strictly monotone in the
chronological order. -/
def Date.linIdx (a : Date) : Nat :=
  372 * (12 * a.year + a.month) + a.day

/- One day forward, as `date + timedelta(days=1)` behaves. -/
def nextDay (a : Date) : Date :=
  if a.day < daysInMonth a.year a.month then ⟨a.year, a.month, a.day + 1⟩
  else if a.month < 12 then ⟨a.year, a.month + 1, 1⟩
  else ⟨a.year + 1, 1, 1⟩

def addDays (n : Nat) (a : Date) : Date := nextDay^[n] a

/- `relativedelta(months=k)`: move `k` months forward keeping the day of month,
clamped to the length of the target month. -/
def addMonths (k : Nat) (a : Date) : Date :=
  let t := 12 * a.year + (a.month - 1) + k
  ⟨t / 12, t % 12 + 1, min a.day (daysInMonth (t / 12) (t % 12 + 1))⟩

/- The frequency dispatch of `engine.run_projection` (both the cursor
initialisation and the loop increment use this same mapping); an unrecognized
frequency has no step. -/
def stepOf? (frequency : String) : Option (Date → Date) :=
  if frequency = "daily" then some (addDays 1)
  else if frequency = "weekly" then some (addDays 7)
  else if frequency = "bi-weekly" then some (addDays 14)
  else if frequency = "monthly" then some (addMonths 1)
  else if frequency = "bi-monthly" then some (addMonths 2)
  else none

def recognizedFreq (frequency : String) : Bool := (stepOf? frequency).isSome

/- The generation loop of `engine.run_projection` (lines 57-82): while the
cursor is within the bound, emit it when it is at or after the start date, then
step by the frequency; an unrecognized frequency breaks out of the loop after
the body has run once.  Structured on a fuel argument; `emittedDates` supplies
fuel that is sufficient for every valid cursor/bound pair. -/
def genLoopF (frequency : String) (startD endB : Date) : Nat → Date → List Date
  | 0, _ => []
  | fuel + 1, cur =>
    if cur ≤ endB then
      (if startD ≤ cur then [cur] else []) ++
        (match stepOf? frequency with
         | some st => genLoopF frequency startD endB fuel (st cur)
         | none => [])
    else []

def emittedDates (frequency : String) (startD endB cur : Date) : List Date :=
  genLoopF frequency startD endB (Date.linIdx endB + 1 - Date.linIdx cur) cur

def maxD (a b : Date) : Date := if a ≤ b then b else a

def minD (a b : Date) : Date := if a ≤ b then a else b

/- SQL `MAX(date)` over a list of dates. -/
def listMaxD : List Date → Option Date
  | [] => none
  | d :: rest =>
    match listMaxD rest with
    | none => some d
    | some m => some (maxD d m)

/- SQL `MIN(date)` over a list of dates. -/
def listMinD : List Date → Option Date
  | [] => none
  | d :: rest =>
    match listMinD rest with
    | none => some d
    | some m => some (minD d m)

def flatMapL {α β : Type} (f : α → List β) : List α → List β
  | [] => []
  | a :: l => f a ++ flatMapL f l

/- A row of the `transactions` table. -/
structure Txn where
  transaction_id : Nat
  user_id : String
  schedule_id : Option Nat
  category_id : Option Nat
  date : Date
  description : Option String
  amount : Rat
  is_confirmed : Int
deriving DecidableEq

/- A row of the `scheduled_transactions` table (a recurrence rule). -/
structure Schedule where
  schedule_id : Nat
  user_id : String
  category_id : Option Nat
  description : Option String
  amount : Rat
  frequency : String
  start_date : Date
  end_date : Option Date
deriving DecidableEq

/- A row of the `user_settings` table. -/
structure SettingsRow where
  user_id : String
  start_balance : Rat
  start_date : Date
deriving DecidableEq

structure DB where
  settingsRows : List SettingsRow
  schedules : List Schedule
  transactions : List Txn
deriving DecidableEq

def getScheduledTransactions (db : DB) (user : String) : List Schedule :=
  db.schedules.filter (fun s => s.user_id == user)

/- `database.get_last_generated_date`: `MAX(date)` over the user's
transactions carrying the given schedule id. -/
def getLastGeneratedDate (txns : List Txn) (user : String) (sid : Nat) : Option Date :=
  listMaxD ((txns.filter (fun t => t.user_id == user && t.schedule_id == some sid)).map
    (fun t => t.date))

/- Cursor initialisation of `engine.run_projection` (lines 33-47): start date
when nothing was generated yet, otherwise the last generated date stepped once
by the frequency (left unstepped for an unrecognized frequency, which has no
branch there). -/
def cursorInit (frequency : String) (startD : Date) (w : Option Date) : Date :=
  match w with
  | none => startD
  | some lastGen =>
    match stepOf? frequency with
    | some st => st lastGen
    | none => lastGen

/- Loop end bound of `engine.run_projection` (lines 50-54): the rule's end
date when present and earlier than the projection end date, otherwise the
projection end date. -/
def loopEndOf (horizon : Date) (endDate : Option Date) : Date :=
  match endDate with
  | none => horizon
  | some e => if e < horizon then e else horizon

def emittedDatesFor (sch : Schedule) (txns : List Txn) (user : String) (horizon : Date) :
    List Date :=
  emittedDates sch.frequency sch.start_date (loopEndOf horizon sch.end_date)
    (cursorInit sch.frequency sch.start_date (getLastGeneratedDate txns user sch.schedule_id))

/- The transaction `engine.run_projection` inserts for a schedule at a date
(`database.add_transaction` call, lines 59-68): unconfirmed, carrying the
rule's category/description/amount and a back-reference to the rule. -/
def mkInstance (sch : Schedule) (user : String) (d : Date) : Txn :=
  { transaction_id := 0, user_id := user, schedule_id := some sch.schedule_id,
    category_id := sch.category_id, date := d, description := sch.description,
    amount := sch.amount, is_confirmed := 0 }

def emitFor (sch : Schedule) (txns : List Txn) (user : String) (horizon : Date) : List Txn :=
  (emittedDatesFor sch txns user horizon).map (mkInstance sch user)

/- The per-schedule loop of `engine.run_projection`: each schedule is
processed in order, its emitted instances being persisted before the next
schedule runs. -/
def projectLoop (user : String) (horizon : Date) : List Schedule → List Txn → List Txn
  | [], txns => txns
  | sch :: rest, txns => projectLoop user horizon rest (txns ++ emitFor sch txns user horizon)

def runProjectionCore (db : DB) (user : String) (horizon : Date) : DB :=
  { db with transactions :=
      projectLoop user horizon (getScheduledTransactions db user) db.transactions }

def charDigit (c : Char) : Nat := c.toNat - 48

/- `datetime.strptime(s, "%Y-%m-%d").date()`: parse a YYYY-MM-DD string into a
valid calendar date; any unconverted trailing characters make the parse fail
(`ValueError: unconverted data remains`). -/
def parseDateChars : List Char → Option Date
  | y1 :: y2 :: y3 :: y4 :: s1 :: m1 :: m2 :: s2 :: d1 :: d2 :: rest =>
    if rest.isEmpty then
      if y1.isDigit && y2.isDigit && y3.isDigit && y4.isDigit && s1 == '-' &&
          m1.isDigit && m2.isDigit && s2 == '-' && d1.isDigit && d2.isDigit then
        let y := 1000 * charDigit y1 + 100 * charDigit y2 + 10 * charDigit y3 + charDigit y4
        let m := 10 * charDigit m1 + charDigit m2
        let d := 10 * charDigit d1 + charDigit d2
        let dt : Date := ⟨y, m, d⟩
        if 1 ≤ y ∧ dt.Valid then some dt else none
      else none
    else none
  | _ => none

def parseDateYMD (s : String) : Option Date := parseDateChars s.data

/- `engine.run_projection` itself: the projection end date string is parsed
with format `%Y-%m-%d` first (line 16); a parse failure is a `ValueError`,
modelled as `none`. -/
def runProjection (db : DB) (user : String) (horizonStr : String) : Option DB :=
  match parseDateYMD horizonStr with
  | none => none
  | some horizon => some (runProjectionCore db user horizon)

/- `database.delete_scheduled_transaction` together with the schema of
`database.create_tables`: the first DELETE removes the rule, and the
`ON DELETE SET NULL` foreign key on `transactions.schedule_id` nulls the
back-reference of every transaction generated from it; the second DELETE (only
when `delete_future` is set) then removes the unconfirmed transactions still
carrying the rule's schedule id. -/
def deleteScheduledTransaction (db : DB) (user : String) (sid : Nat) (deleteFuture : Bool) :
    DB :=
  let deletedAny := db.schedules.any (fun s => s.schedule_id == sid && s.user_id == user)
  let schedules1 := db.schedules.filter (fun s => !(s.schedule_id == sid && s.user_id == user))
  let txns1 :=
    if deletedAny then
      db.transactions.map (fun t =>
        if t.schedule_id == some sid then { t with schedule_id := none } else t)
    else db.transactions
  let txns2 :=
    if deleteFuture then
      txns1.filter (fun t =>
        !(t.schedule_id == some sid && t.user_id == user && t.is_confirmed == 0))
    else txns1
  { db with schedules := schedules1, transactions := txns2 }

/- Per-row credit column of `engine.get_calendar_data` (line 119), summed per
day bucket by the groupby. -/
def credits (bucket : List Txn) : Rat :=
  (bucket.map (fun t => if 0 < t.amount then t.amount else 0)).sum

/- Per-row debit column (line 120), summed per day bucket. -/
def debits (bucket : List Txn) : Rat :=
  (bucket.map (fun t => if t.amount ≤ 0 then t.amount else 0)).sum

def netChange (bucket : List Txn) : Rat := credits bucket + debits bucket

/- Bucket `is_actual` aggregate (line 125): `(x == 1).all() or x.empty`. -/
def bucketIsActual (bucket : List Txn) : Bool :=
  bucket.all (fun t => t.is_confirmed == 1) || bucket.isEmpty

/- `pd.date_range(start, end, freq='D')`: every calendar day from `cur`
through `last` inclusive, again with sufficient fuel supplied by
`dateRange`. -/
def dateRangeF : Nat → Date → Date → List Date
  | 0, _, _ => []
  | fuel + 1, cur, last => if cur ≤ last then cur :: dateRangeF fuel (nextDay cur) last else []

def dateRange (startD endD : Date) : List Date :=
  dateRangeF (Date.linIdx endD + 1 - Date.linIdx startD) startD endD

def getSettings (db : DB) (user : String) : Option SettingsRow :=
  db.settingsRows.find? (fun r => r.user_id == user)

/- `database.get_all_transactions_after`: the user's transactions dated on or
after the given date. -/
def getAllTransactionsAfter (txns : List Txn) (user : String) (d : Date) : List Txn :=
  txns.filter (fun t => t.user_id == user && decide (d ≤ t.date))

structure DaySummary where
  date : Date
  credits : Rat
  debits : Rat
  net_change : Rat
  balance : Rat
  is_actual : Bool
deriving DecidableEq

/- `engine.get_calendar_data`: with no settings the result is empty; otherwise
transactions from the settings start date onward are bucketed per day, the
daily summary (which the `pd.Grouper(freq='D')` aggregation produces for every
day between the earliest and latest transaction date) is left-merged onto the
view-window grid with missing cells filled with 0, the running balance
cumulates net changes over the grid rows on/after the start date (rows before
it are filled with 0), and the final actual flag is
`date < start_date or merged_is_actual == True` (a merge cell filled with 0 is
not `True`). -/
def getCalendarData (db : DB) (user : String) (viewStart viewEnd : Date) : List DaySummary :=
  match getSettings db user with
  | none => []
  | some settings =>
    let startD := settings.start_date
    let allTx := getAllTransactionsAfter db.transactions user startD
    let grid := dateRange viewStart viewEnd
    let bucket := fun (d : Date) => allTx.filter (fun t => t.date == d)
    let inSpan := fun (d : Date) =>
      match listMinD (allTx.map (fun t => t.date)), listMaxD (allTx.map (fun t => t.date)) with
      | some lo, some hi => decide (lo ≤ d) && decide (d ≤ hi)
      | _, _ => false
    let credCol := fun (d : Date) => if inSpan d then credits (bucket d) else 0
    let debCol := fun (d : Date) => if inSpan d then debits (bucket d) else 0
    let netCol := fun (d : Date) => if inSpan d then netChange (bucket d) else 0
    let actualCol : Date → Option Bool := fun d =>
      if allTx.isEmpty then some true
      else if inSpan d then some (bucketIsActual (bucket d)) else none
    let balCol := fun (d : Date) =>
      if startD ≤ d then
        settings.start_balance +
          ((grid.filter (fun x => decide (startD ≤ x) && decide (x ≤ d))).map netCol).sum
      else 0
    grid.map (fun d =>
      { date := d, credits := credCol d, debits := debCol d, net_change := netCol d,
        balance := balCol d,
        is_actual := decide (d < startD) || (actualCol d == some true) })

/- `relativedelta(years=2)` with day-of-month clamping (Feb 29 two years on
becomes Feb 28). -/
def addYears2 (a : Date) : Date :=
  ⟨a.year + 2, a.month, min a.day (daysInMonth (a.year + 2) a.month)⟩

def pad2 (n : Nat) : String := if n < 10 then "0" ++ toString n else toString n

def pad4 (n : Nat) : String :=
  if n < 10 then "000" ++ toString n
  else if n < 100 then "00" ++ toString n
  else if n < 1000 then "0" ++ toString n
  else toString n

def isoOfDate (a : Date) : String :=
  pad4 a.year ++ "-" ++ pad2 a.month ++ "-" ++ pad2 a.day

/- The horizon string built by the `/api/calendar_data` route (app.py line
183): `datetime.isoformat()` of the parsed view end plus two years; since the
datetime sits at midnight, `isoformat` renders `YYYY-MM-DDTHH:MM:SS`. -/
def projectionEndDateStr (viewEnd : Date) : String :=
  isoOfDate (addYears2 viewEnd) ++ "T00:00:00"

def calendarErrMsg : String := "Error in get_calendar_data"

/- The `/api/calendar_data` route (app.py lines 180-195): parse the end
parameter, run projection with the two-years-ahead horizon string, then
compute the calendar data; any `ValueError` raised inside the `try` block
becomes a 500 error response. -/
def calendarDataEndpoint (db : DB) (user : String) (startStr endStr : String) :
    Except String (List DaySummary) :=
  match parseDateYMD endStr with
  | none => Except.error calendarErrMsg
  | some endD =>
    match runProjection db user (projectionEndDateStr endD) with
    | none => Except.error calendarErrMsg
    | some db1 =>
      match parseDateYMD startStr with
      | none => Except.error calendarErrMsg
      | some startD => Except.ok (getCalendarData db1 user startD endD)

/- Concrete database exercising the balance window: settings start
2024-01-01 with balance 100, and one confirmed transaction of amount 10 on
2024-01-01. -/
def dbBalWin : DB :=
  ⟨[⟨"u", 100, ⟨2024, 1, 1⟩⟩], [],
   [⟨1, "u", none, none, ⟨2024, 1, 1⟩, none, 10, 1⟩]⟩

/- Concrete database exercising the empty-day actual flag: settings start
2024-01-01 with balance 100, and one confirmed transaction of amount 5 on
2024-01-02. -/
def dbEmptyDay : DB :=
  ⟨[⟨"u", 100, ⟨2024, 1, 1⟩⟩], [],
   [⟨1, "u", none, none, ⟨2024, 1, 2⟩, none, 5, 1⟩]⟩

/- Concrete daily rule. -/
def schDaily : Schedule := ⟨1, "u", none, none, 5, "daily", ⟨2024, 1, 1⟩, none⟩

/- Concrete rule whose frequency `"yearly"` is not in the frequency mapping. -/
def schYearly : Schedule := ⟨2, "u", none, none, 7, "yearly", ⟨2024, 1, 1⟩, none⟩

/- Concrete database with one well-formed daily rule and one rule whose
frequency `"yearly"` is not in the frequency mapping. -/
def dbMixedFreq : DB := ⟨[], [schDaily, schYearly], []⟩

/- Concrete database with a single rule of unrecognized frequency. -/
def dbYearlyOnly : DB :=
  ⟨[], [⟨1, "u", none, none, 5, "yearly", ⟨2024, 1, 1⟩, none⟩], []⟩

/- Concrete database with a single daily rule. -/
def dbDailyOnly : DB :=
  ⟨[], [⟨1, "u", none, none, 5, "daily", ⟨2024, 1, 1⟩, none⟩], []⟩

/- Concrete monthly schedule starting on a month-end boundary. -/
def schMonthly : Schedule := ⟨1, "u", none, none, 5, "monthly", ⟨2024, 1, 31⟩, none⟩

/- Concrete database for the cascade deletion scenario: two rules; rule 1 has
one unconfirmed generated instance and one confirmed one, rule 2 has one
unconfirmed instance. -/
def dbCascade : DB :=
  ⟨[], [⟨1, "u", none, none, 5, "monthly", ⟨2024, 1, 1⟩, none⟩,
        ⟨2, "u", none, none, 5, "monthly", ⟨2024, 1, 1⟩, none⟩],
   [⟨1, "u", some 1, none, ⟨2024, 2, 1⟩, none, 5, 0⟩,
    ⟨2, "u", some 1, none, ⟨2024, 1, 1⟩, none, 5, 1⟩,
    ⟨3, "u", some 2, none, ⟨2024, 1, 1⟩, none, 5, 0⟩]⟩

/- Concrete database with no settings row. -/
def dbNoSettings : DB := ⟨[], [], []⟩

/- Concrete database whose settings start 2024-01-03, with an unconfirmed
transaction dated before that start. -/
def dbPreStart : DB :=
  ⟨[⟨"u", 100, ⟨2024, 1, 3⟩⟩], [],
   [⟨1, "u", none, none, ⟨2024, 1, 1⟩, none, 5, 0⟩]⟩

/- Characterisation of the chronological strict order. -/
theorem Date.lt_iff (a b : Date) : a < b ↔ (a.year < b.year ∨ (a.year = b.year ∧
    (a.month < b.month ∨ (a.month = b.month ∧ a.day < b.day)))) := Iff.rfl

/- Characterisation of the chronological order. -/
theorem Date.le_iff (a b : Date) : a ≤ b ↔ (a.year < b.year ∨ (a.year = b.year ∧
    (a.month < b.month ∨ (a.month = b.month ∧ a.day ≤ b.day)))) := Iff.rfl

/- The chronological order is reflexive. -/
theorem Date.le_refl (a : Date) : a ≤ a := by simp [Date.le_iff]

/- The chronological order is transitive. -/
theorem Date.le_trans {a b c : Date} (h1 : a ≤ b) (h2 : b ≤ c) : a ≤ c := by
  rw [Date.le_iff] at *; omega

/- A strict bound composes with a bound on the right. -/
theorem Date.lt_of_lt_of_le {a b c : Date} (h1 : a < b) (h2 : b ≤ c) : a < c := by
  rw [Date.lt_iff] at *; rw [Date.le_iff] at h2; omega

/- A bound composes with a strict bound on the right. -/
theorem Date.lt_of_le_of_lt {a b c : Date} (h1 : a ≤ b) (h2 : b < c) : a < c := by
  rw [Date.le_iff] at h1; rw [Date.lt_iff] at *; omega

/- A strict bound is in particular a bound. -/
theorem Date.le_of_lt {a b : Date} (h : a < b) : a ≤ b := by
  rw [Date.lt_iff] at h; rw [Date.le_iff]; omega

/- Failing to be bounded means being strictly above. -/
theorem Date.not_le {a b : Date} : ¬(a ≤ b) ↔ b < a := by
  rw [Date.le_iff, Date.lt_iff]; omega

/- Failing to be strictly below means being at or above. -/
theorem Date.not_lt {a b : Date} : ¬(a < b) ↔ b ≤ a := by
  rw [Date.le_iff, Date.lt_iff]; omega

/- The strict chronological order is irreflexive. -/
theorem Date.lt_irrefl (a : Date) : ¬(a < a) := by rw [Date.lt_iff]; omega

/- The chronological order is total. -/
theorem Date.le_total (a b : Date) : a ≤ b ∨ b ≤ a := by
  rw [Date.le_iff, Date.le_iff]; omega

/- Strictly ordered dates are distinct. -/
theorem Date.ne_of_lt {a b : Date} (h : a < b) : a ≠ b := by
  intro he; subst he; exact Date.lt_irrefl a h

/- A date bounded both ways strictly is impossible. -/
theorem Date.lt_asymm {a b : Date} (h1 : a < b) (h2 : b < a) : False := by
  rw [Date.lt_iff] at *; omega

/- A bound below and a strict bound above are incompatible with equality. -/
theorem Date.lt_or_eq_of_le {a b : Date} (h : a ≤ b) : a < b ∨ a = b := by
  by_cases he : a = b
  · exact Or.inr he
  · left
    have hne : ¬(a.year = b.year ∧ a.month = b.month ∧ a.day = b.day) := by
      intro ⟨e1, e2, e3⟩
      exact he (by cases a; cases b; simp_all)
    rw [Date.le_iff] at h; rw [Date.lt_iff]; omega

/- Every month has at most 31 days. -/
theorem daysInMonth_le (y m : Nat) : daysInMonth y m ≤ 31 := by
  unfold daysInMonth
  split
  · split <;> omega
  · split <;> omega

/- Every month has at least 28 days, in particular at least one. -/
theorem daysInMonth_pos (y m : Nat) : 1 ≤ daysInMonth y m := by
  unfold daysInMonth
  split
  · split <;> omega
  · split <;> omega

/- Crude bounds on the components of a valid date. -/
theorem Date.Valid.bounds {a : Date} (h : a.Valid) :
    1 ≤ a.month ∧ a.month ≤ 12 ∧ 1 ≤ a.day ∧ a.day ≤ 31 :=
  ⟨h.1, h.2.1, h.2.2.1, Nat.le_trans h.2.2.2 (daysInMonth_le a.year a.month)⟩

/- Unfolding lemma for the date linearisation. -/
theorem Date.linIdx_def (a : Date) : a.linIdx = 372 * (12 * a.year + a.month) + a.day := rfl

/- On valid dates the chronological order agrees with the linearisation. -/
theorem Date.le_iff_linIdx {a b : Date} (ha : a.Valid) (hb : b.Valid) :
    a ≤ b ↔ a.linIdx ≤ b.linIdx := by
  have h1 := ha.bounds
  have h2 := hb.bounds
  rw [Date.le_iff, Date.linIdx_def, Date.linIdx_def]; omega

/- On valid dates the strict chronological order agrees with the linearisation. -/
theorem Date.lt_iff_linIdx {a b : Date} (ha : a.Valid) (hb : b.Valid) :
    a < b ↔ a.linIdx < b.linIdx := by
  have h1 := ha.bounds
  have h2 := hb.bounds
  rw [Date.lt_iff, Date.linIdx_def, Date.linIdx_def]; omega

/- Stepping one day preserves validity. -/
theorem nextDay_valid {a : Date} (h : a.Valid) : (nextDay a).Valid := by
  obtain ⟨h1, h2, h3, h4⟩ := h
  unfold nextDay Date.Valid
  split
  · dsimp only
    exact ⟨h1, h2, by omega, by omega⟩
  · split
    · dsimp only
      exact ⟨by omega, by omega, by omega, daysInMonth_pos _ _⟩
    · dsimp only
      exact ⟨by omega, by omega, by omega, daysInMonth_pos _ _⟩

/- Stepping one day strictly increases the linearisation. -/
theorem nextDay_linIdx {a : Date} (h : a.Valid) : a.linIdx < (nextDay a).linIdx := by
  obtain ⟨h1, h2, h3, h4⟩ := h.bounds
  unfold nextDay
  split
  · rw [Date.linIdx_def, Date.linIdx_def]; dsimp only; omega
  · split
    · rw [Date.linIdx_def, Date.linIdx_def]; dsimp only; omega
    · rw [Date.linIdx_def, Date.linIdx_def]; dsimp only; omega

/- A valid date is strictly before its successor day. -/
theorem lt_nextDay {a : Date} (h : a.Valid) : a < nextDay a :=
  (Date.lt_iff_linIdx h (nextDay_valid h)).mpr (nextDay_linIdx h)

/- The successor day is the least valid date strictly above a valid date. -/
theorem nextDay_le_of_lt {a b : Date} (ha : a.Valid) (hb : b.Valid) (h : a < b) :
    nextDay a ≤ b := by
  obtain ⟨ha1, ha2, ha3, ha4⟩ := ha
  obtain ⟨hb1, hb2, hb3, hb4⟩ := hb
  have hdim : a.year = b.year → a.month = b.month →
      daysInMonth a.year a.month = daysInMonth b.year b.month := by
    intro e1 e2; rw [e1, e2]
  rw [Date.lt_iff] at h
  unfold nextDay
  split
  · rw [Date.le_iff]; dsimp only; omega
  · split
    · rw [Date.le_iff]; dsimp only; omega
    · rw [Date.le_iff]; dsimp only; omega

/- Stepping one day is monotone on valid dates. -/
theorem nextDay_mono {a b : Date} (ha : a.Valid) (hb : b.Valid) (h : a ≤ b) :
    nextDay a ≤ nextDay b := by
  rcases Date.lt_or_eq_of_le h with h' | rfl
  · exact Date.le_trans (nextDay_le_of_lt ha hb h') (Date.le_of_lt (lt_nextDay hb))
  · exact Date.le_refl _

/- Unfolding for the zero-day step. -/
theorem addDays_zero (a : Date) : addDays 0 a = a := rfl

/- Stepping days unfolds one inner day at a time. -/
theorem addDays_succ (n : Nat) (a : Date) : addDays (n + 1) a = addDays n (nextDay a) :=
  Function.iterate_succ_apply nextDay n a

/- Stepping days preserves validity. -/
theorem addDays_valid (n : Nat) : ∀ {a : Date}, a.Valid → (addDays n a).Valid := by
  induction n with
  | zero => intro a h; rw [addDays_zero]; exact h
  | succ n ih => intro a h; rw [addDays_succ]; exact ih (nextDay_valid h)

/- A valid date is bounded by any day step of itself. -/
theorem le_addDays (n : Nat) : ∀ {a : Date}, a.Valid → a ≤ addDays n a := by
  induction n with
  | zero => intro a _; rw [addDays_zero]; exact Date.le_refl a
  | succ n ih =>
    intro a h
    rw [addDays_succ]
    exact Date.le_trans (Date.le_of_lt (lt_nextDay h)) (ih (nextDay_valid h))

/- A positive day step strictly increases a valid date. -/
theorem lt_addDays {n : Nat} (hn : 0 < n) {a : Date} (h : a.Valid) : a < addDays n a := by
  obtain ⟨m, rfl⟩ : ∃ m, n = m + 1 := ⟨n - 1, by omega⟩
  rw [addDays_succ]
  exact Date.lt_of_lt_of_le (lt_nextDay h) (le_addDays m (nextDay_valid h))

/- Day stepping is monotone on valid dates. -/
theorem addDays_mono (n : Nat) : ∀ {a b : Date}, a.Valid → b.Valid → a ≤ b →
    addDays n a ≤ addDays n b := by
  induction n with
  | zero => intro a b _ _ h; rw [addDays_zero, addDays_zero]; exact h
  | succ n ih =>
    intro a b ha hb h
    rw [addDays_succ, addDays_succ]
    exact ih (nextDay_valid ha) (nextDay_valid hb) (nextDay_mono ha hb h)

/- Month stepping preserves validity. -/
theorem addMonths_valid (k : Nat) {a : Date} (h : a.Valid) : (addMonths k a).Valid := by
  obtain ⟨h1, h2, h3, h4⟩ := h
  unfold addMonths Date.Valid
  dsimp only
  refine ⟨by omega, by omega, ?_, Nat.min_le_right _ _⟩
  exact Nat.le_min.mpr ⟨h3, daysInMonth_pos _ _⟩

/- A positive month step strictly increases the linearisation of a valid
date. -/
theorem addMonths_linIdx {k : Nat} (hk : 1 ≤ k) {a : Date} (h : a.Valid) :
    a.linIdx < (addMonths k a).linIdx := by
  obtain ⟨h1, h2, h3, h4⟩ := h.bounds
  unfold addMonths
  rw [Date.linIdx_def, Date.linIdx_def]
  dsimp only
  have hdm := Nat.div_add_mod (12 * a.year + (a.month - 1) + k) 12
  have hmin : 1 ≤ min a.day
      (daysInMonth ((12 * a.year + (a.month - 1) + k) / 12)
        ((12 * a.year + (a.month - 1) + k) % 12 + 1)) :=
    Nat.le_min.mpr ⟨h3, daysInMonth_pos _ _⟩
  omega

/- A positive month step strictly increases a valid date. -/
theorem lt_addMonths {k : Nat} (hk : 1 ≤ k) {a : Date} (h : a.Valid) : a < addMonths k a :=
  (Date.lt_iff_linIdx h (addMonths_valid k h)).mpr (addMonths_linIdx hk h)

/- Month stepping is monotone on valid dates. -/
theorem addMonths_mono (k : Nat) {a b : Date} (ha : a.Valid) (hb : b.Valid) (hab : a ≤ b) :
    addMonths k a ≤ addMonths k b := by
  obtain ⟨ha1, ha2, ha3, ha4⟩ := ha.bounds
  obtain ⟨hb1, hb2, hb3, hb4⟩ := hb.bounds
  by_cases hym : a.year = b.year ∧ a.month = b.month
  · obtain ⟨e1, e2⟩ := hym
    have hd : a.day ≤ b.day := by rw [Date.le_iff] at hab; omega
    unfold addMonths
    rw [Date.le_iff]
    dsimp only
    rw [e1, e2]
    exact Or.inr ⟨rfl, Or.inr ⟨rfl, min_le_min hd (Nat.le_refl _)⟩⟩
  · rw [Date.le_iff] at hab
    unfold addMonths
    rw [Date.le_iff]
    dsimp only
    omega

/- The step of a recognized frequency is one of the five step functions. -/
theorem stepOf?_cases {f : String} {st : Date → Date} (hf : stepOf? f = some st) :
    st = addDays 1 ∨ st = addDays 7 ∨ st = addDays 14 ∨
      st = addMonths 1 ∨ st = addMonths 2 := by
  unfold stepOf? at hf
  by_cases h1 : f = "daily"
  · rw [if_pos h1] at hf; exact Or.inl (Option.some.inj hf).symm
  · rw [if_neg h1] at hf
    by_cases h2 : f = "weekly"
    · rw [if_pos h2] at hf; exact Or.inr (Or.inl (Option.some.inj hf).symm)
    · rw [if_neg h2] at hf
      by_cases h3 : f = "bi-weekly"
      · rw [if_pos h3] at hf; exact Or.inr (Or.inr (Or.inl (Option.some.inj hf).symm))
      · rw [if_neg h3] at hf
        by_cases h4 : f = "monthly"
        · rw [if_pos h4] at hf
          exact Or.inr (Or.inr (Or.inr (Or.inl (Option.some.inj hf).symm)))
        · rw [if_neg h4] at hf
          by_cases h5 : f = "bi-monthly"
          · rw [if_pos h5] at hf
            exact Or.inr (Or.inr (Or.inr (Or.inr (Option.some.inj hf).symm)))
          · rw [if_neg h5] at hf; cases hf

/- A recognized frequency's step preserves validity. -/
theorem stepOf?_valid {f : String} {st : Date → Date} (hf : stepOf? f = some st)
    {a : Date} (h : a.Valid) : (st a).Valid := by
  rcases stepOf?_cases hf with rfl | rfl | rfl | rfl | rfl
  · exact addDays_valid 1 h
  · exact addDays_valid 7 h
  · exact addDays_valid 14 h
  · exact addMonths_valid 1 h
  · exact addMonths_valid 2 h

/- A recognized frequency's step strictly increases a valid date. -/
theorem stepOf?_lt {f : String} {st : Date → Date} (hf : stepOf? f = some st)
    {a : Date} (h : a.Valid) : a < st a := by
  rcases stepOf?_cases hf with rfl | rfl | rfl | rfl | rfl
  · exact lt_addDays (by omega) h
  · exact lt_addDays (by omega) h
  · exact lt_addDays (by omega) h
  · exact lt_addMonths (by omega) h
  · exact lt_addMonths (by omega) h

/- A recognized frequency's step strictly increases the linearisation of a
valid date. -/
theorem stepOf?_linIdx {f : String} {st : Date → Date} (hf : stepOf? f = some st)
    {a : Date} (h : a.Valid) : a.linIdx < (st a).linIdx :=
  (Date.lt_iff_linIdx h (stepOf?_valid hf h)).mp (stepOf?_lt hf h)

/- A recognized frequency's step is monotone on valid dates. -/
theorem stepOf?_mono {f : String} {st : Date → Date} (hf : stepOf? f = some st)
    {a b : Date} (ha : a.Valid) (hb : b.Valid) (hab : a ≤ b) : st a ≤ st b := by
  rcases stepOf?_cases hf with rfl | rfl | rfl | rfl | rfl
  · exact addDays_mono 1 ha hb hab
  · exact addDays_mono 7 ha hb hab
  · exact addDays_mono 14 ha hb hab
  · exact addMonths_mono 1 ha hb hab
  · exact addMonths_mono 2 ha hb hab

/- Orbit elements of a recognized step are valid. -/
theorem iter_valid {f : String} {st : Date → Date} (hf : stepOf? f = some st) (k : Nat) :
    ∀ {c : Date}, c.Valid → (st^[k] c).Valid := by
  induction k with
  | zero => intro c hc; simpa using hc
  | succ k ih =>
    intro c hc
    rw [Function.iterate_succ_apply]
    exact ih (stepOf?_valid hf hc)

/- A valid date is bounded by every element of its orbit. -/
theorem le_iter {f : String} {st : Date → Date} (hf : stepOf? f = some st) (k : Nat) :
    ∀ {c : Date}, c.Valid → c ≤ st^[k] c := by
  induction k with
  | zero => intro c _; simpa using Date.le_refl c
  | succ k ih =>
    intro c hc
    rw [Function.iterate_succ_apply]
    exact Date.le_trans (Date.le_of_lt (stepOf?_lt hf hc)) (ih (stepOf?_valid hf hc))

/- Unfolding lemma for the generation loop at positive fuel. -/
theorem genLoopF_succ (f : String) (S B : Date) (n : Nat) (c : Date) :
    genLoopF f S B (n + 1) c =
      if c ≤ B then
        (if S ≤ c then [c] else []) ++
          (match stepOf? f with
           | some st => genLoopF f S B n (st c)
           | none => [])
      else [] := rfl

/- Every date the loop emits lies between the start date (emission guard) and
the loop bound, at or after the cursor. -/
theorem genLoopF_mem {f : String} {S B : Date} :
    ∀ (n : Nat) {c : Date}, c.Valid → ∀ x ∈ genLoopF f S B n c, S ≤ x ∧ x ≤ B ∧ c ≤ x := by
  intro n
  induction n with
  | zero => intro c _ x hx; cases hx
  | succ n ih =>
    intro c hc x hx
    rw [genLoopF_succ] at hx
    by_cases hg : c ≤ B
    · rw [if_pos hg] at hx
      rcases List.mem_append.mp hx with h1 | h2
      · by_cases hS : S ≤ c
        · rw [if_pos hS] at h1
          rcases List.mem_singleton.mp h1 with rfl
          exact ⟨hS, hg, Date.le_refl x⟩
        · rw [if_neg hS] at h1; cases h1
      · cases hst : stepOf? f with
        | none => rw [hst] at h2; cases h2
        | some st =>
          rw [hst] at h2
          obtain ⟨hs1, hs2, hs3⟩ := ih (stepOf?_valid hst hc) x h2
          exact ⟨hs1, hs2, Date.le_trans (Date.le_of_lt (stepOf?_lt hst hc)) hs3⟩
    · rw [if_neg hg] at hx; cases hx

/- With sufficient fuel and a recognized frequency, the loop emits exactly the
orbit of the cursor clipped to the window from the start date to the bound. -/
theorem genLoopF_mem_iff {f : String} {st : Date → Date} (hf : stepOf? f = some st)
    {S B : Date} (hB : B.Valid) :
    ∀ (n : Nat) {c : Date}, c.Valid → B.linIdx + 1 - c.linIdx ≤ n →
    ∀ x : Date, (x ∈ genLoopF f S B n c ↔ ((∃ k, x = st^[k] c) ∧ S ≤ x ∧ x ≤ B)) := by
  intro n
  induction n with
  | zero =>
    intro c hc hn x
    constructor
    · intro hx; cases hx
    · rintro ⟨⟨k, rfl⟩, _, hxB⟩
      exfalso
      have h1 : c ≤ B := Date.le_trans (le_iter hf k hc) hxB
      have h2 : c.linIdx ≤ B.linIdx := (Date.le_iff_linIdx hc hB).mp h1
      omega
  | succ n ih =>
    intro c hc hn x
    rw [genLoopF_succ]
    by_cases hg : c ≤ B
    · rw [if_pos hg, hf]
      have hstc : (st c).Valid := stepOf?_valid hf hc
      have hlin : c.linIdx < (st c).linIdx := stepOf?_linIdx hf hc
      have hcB : c.linIdx ≤ B.linIdx := (Date.le_iff_linIdx hc hB).mp hg
      have hrec := ih hstc (by omega)
      constructor
      · intro hx
        rcases List.mem_append.mp hx with h1 | h2
        · by_cases hS : S ≤ c
          · rw [if_pos hS] at h1
            rcases List.mem_singleton.mp h1 with rfl
            exact ⟨⟨0, by simp⟩, hS, hg⟩
          · rw [if_neg hS] at h1; cases h1
        · obtain ⟨⟨k, hk⟩, hs1, hs2⟩ := (hrec x).mp h2
          exact ⟨⟨k + 1, by rw [hk, Function.iterate_succ_apply]⟩, hs1, hs2⟩
      · rintro ⟨⟨k, hk⟩, hS, hxB⟩
        rcases k with _ | k
        · simp only [Function.iterate_zero_apply] at hk
          subst hk
          apply List.mem_append.mpr
          left
          rw [if_pos hS]
          exact List.mem_singleton_self x
        · apply List.mem_append.mpr
          right
          apply (hrec x).mpr
          exact ⟨⟨k, by rw [hk, Function.iterate_succ_apply]⟩, hS, hxB⟩
    · rw [if_neg hg]
      constructor
      · intro hx; cases hx
      · rintro ⟨⟨k, rfl⟩, _, hxB⟩
        exact absurd (Date.le_trans (le_iter hf k hc) hxB) hg

/- The emitted dates are strictly increasing along the loop. -/
theorem genLoopF_pairwise {f : String} {S B : Date} :
    ∀ (n : Nat) {c : Date}, c.Valid →
    (genLoopF f S B n c).Pairwise (fun x y => x < y) := by
  intro n
  induction n with
  | zero => intro c _; exact List.Pairwise.nil
  | succ n ih =>
    intro c hc
    rw [genLoopF_succ]
    by_cases hg : c ≤ B
    · rw [if_pos hg]
      rw [List.pairwise_append]
      refine ⟨?_, ?_, ?_⟩
      · by_cases hS : S ≤ c
        · rw [if_pos hS]; exact List.pairwise_singleton _ _
        · rw [if_neg hS]; exact List.Pairwise.nil
      · cases hst : stepOf? f with
        | none => exact List.Pairwise.nil
        | some st => exact ih (stepOf?_valid hst hc)
      · intro a ha b hb
        have ha' : a = c := by
          by_cases hS : S ≤ c
          · rw [if_pos hS] at ha; exact List.mem_singleton.mp ha
          · rw [if_neg hS] at ha; cases ha
        subst ha'
        cases hst : stepOf? f with
        | none => rw [hst] at hb; cases hb
        | some st =>
          rw [hst] at hb
          obtain ⟨_, _, hs3⟩ := genLoopF_mem n (stepOf?_valid hst hc) b hb
          exact Date.lt_of_lt_of_le (stepOf?_lt hst hc) hs3
    · rw [if_neg hg]; exact List.Pairwise.nil

/- The fuel used by the loop is irrelevant once it is sufficient. -/
theorem genLoopF_congr {f : String} {S B : Date} (hB : B.Valid) :
    ∀ (n1 : Nat) {n2 : Nat} {c : Date}, c.Valid →
    B.linIdx + 1 - c.linIdx ≤ n1 → B.linIdx + 1 - c.linIdx ≤ n2 →
    genLoopF f S B n1 c = genLoopF f S B n2 c := by
  intro n1
  induction n1 with
  | zero =>
    intro n2 c hc h1 h2
    have hlt : B < c := by
      rw [Date.lt_iff_linIdx hB hc]; omega
    cases n2 with
    | zero => rfl
    | succ n2 =>
      rw [genLoopF_succ, if_neg (Date.not_le.mpr hlt)]
      rfl
  | succ n1 ih =>
    intro n2 c hc h1 h2
    cases n2 with
    | zero =>
      have hlt : B < c := by
        rw [Date.lt_iff_linIdx hB hc]; omega
      rw [genLoopF_succ, if_neg (Date.not_le.mpr hlt)]
      rfl
    | succ n2 =>
      rw [genLoopF_succ, genLoopF_succ]
      by_cases hg : c ≤ B
      · rw [if_pos hg, if_pos hg]
        cases hst : stepOf? f with
        | none => rfl
        | some st =>
          have hlin : c.linIdx < (st c).linIdx := stepOf?_linIdx hst hc
          have hcB : c.linIdx ≤ B.linIdx := (Date.le_iff_linIdx hc hB).mp hg
          dsimp only
          rw [@ih n2 (st c) (stepOf?_valid hst hc) (by omega) (by omega)]
      · rw [if_neg hg, if_neg hg]

/- The loop with its canonical fuel equals the loop with any sufficient
fuel. -/
theorem emittedDates_eq_genLoopF {f : String} {S B c : Date} (hc : c.Valid) (hB : B.Valid)
    (n : Nat) (hn : B.linIdx + 1 - c.linIdx ≤ n) :
    emittedDates f S B c = genLoopF f S B n c :=
  genLoopF_congr hB _ hc (Nat.le_refl _) hn

/- Membership characterisation of the emitted dates for a recognized
frequency. -/
theorem emittedDates_mem_iff {f : String} {st : Date → Date} (hf : stepOf? f = some st)
    {S B c : Date} (hc : c.Valid) (hB : B.Valid) (x : Date) :
    x ∈ emittedDates f S B c ↔ ((∃ k, x = st^[k] c) ∧ S ≤ x ∧ x ≤ B) :=
  genLoopF_mem_iff hf hB _ hc (Nat.le_refl _) x

/- Bounds on any emitted date. -/
theorem emittedDates_mem {f : String} {S B c : Date} (hc : c.Valid) {x : Date}
    (hx : x ∈ emittedDates f S B c) : S ≤ x ∧ x ≤ B ∧ c ≤ x :=
  genLoopF_mem _ hc x hx

/- The emitted dates are strictly increasing. -/
theorem emittedDates_pairwise {f : String} {S B c : Date} (hc : c.Valid) :
    (emittedDates f S B c).Pairwise (fun x y => x < y) :=
  genLoopF_pairwise _ hc

/- No date is emitted twice. -/
theorem emittedDates_nodup {f : String} {S B c : Date} (hc : c.Valid) :
    (emittedDates f S B c).Nodup :=
  (emittedDates_pairwise hc).imp (fun h => Date.ne_of_lt h)

/- A cursor past the bound emits nothing. -/
theorem emittedDates_nil_of_gt {f : String} {S B c : Date} (hc : c.Valid) (hB : B.Valid)
    (h : B < c) : emittedDates f S B c = [] := by
  unfold emittedDates
  have h0 : B.linIdx + 1 - c.linIdx = 0 := by
    have := (Date.lt_iff_linIdx hB hc).mp h; omega
  rw [h0]
  rfl

/- For an unrecognized frequency the loop body runs at most once: it emits the
cursor when the cursor is within bounds and at or after the start date, then
breaks. -/
theorem emittedDates_unknown {f : String} (hf : stepOf? f = none) {S B c : Date}
    (hc : c.Valid) (hB : B.Valid) :
    emittedDates f S B c = if c ≤ B then (if S ≤ c then [c] else []) else [] := by
  unfold emittedDates
  cases hn : B.linIdx + 1 - c.linIdx with
  | zero =>
    have hlt : B < c := by
      rw [Date.lt_iff_linIdx hB hc]; omega
    rw [if_neg (Date.not_le.mpr hlt)]
    rfl
  | succ n =>
    rw [genLoopF_succ, hf]
    by_cases hg : c ≤ B
    · rw [if_pos hg, if_pos hg, List.append_nil]
    · rw [if_neg hg, if_neg hg]

/- The first argument bounds the binary date maximum. -/
theorem le_maxD_left (a b : Date) : a ≤ maxD a b := by
  unfold maxD
  split
  next h => exact h
  next h => exact Date.le_refl a

/- The second argument bounds the binary date maximum. -/
theorem le_maxD_right (a b : Date) : b ≤ maxD a b := by
  unfold maxD
  split
  next h => exact Date.le_refl b
  next h => exact Date.le_of_lt (Date.not_le.mp h)

/- The SQL maximum is none exactly on the empty list. -/
theorem listMaxD_eq_none {l : List Date} : listMaxD l = none ↔ l = [] := by
  cases l with
  | nil => simp [listMaxD]
  | cons d rest =>
    constructor
    · intro h
      exfalso
      cases hr : listMaxD rest <;> simp [listMaxD, hr] at h
    · intro h; exact absurd h (List.cons_ne_nil d rest)

/- The SQL maximum of a list is one of its elements. -/
theorem listMaxD_mem : ∀ {l : List Date} {m : Date}, listMaxD l = some m → m ∈ l := by
  intro l
  induction l with
  | nil => intro m h; cases h
  | cons d rest ih =>
    intro m h
    simp only [listMaxD] at h
    cases hr : listMaxD rest with
    | none =>
      rw [hr] at h
      simp only [Option.some.injEq] at h
      rw [← h]
      exact List.mem_cons_self d rest
    | some m2 =>
      rw [hr] at h
      simp only [Option.some.injEq] at h
      rw [← h]
      unfold maxD
      split
      · exact List.mem_cons_of_mem d (ih hr)
      · exact List.mem_cons_self d rest

/- The SQL maximum bounds every element of the list. -/
theorem listMaxD_ub : ∀ {l : List Date} {m : Date}, listMaxD l = some m → ∀ x ∈ l, x ≤ m := by
  intro l
  induction l with
  | nil => intro m _ x hx; cases hx
  | cons d rest ih =>
    intro m h x hx
    simp only [listMaxD] at h
    cases hr : listMaxD rest with
    | none =>
      rw [hr] at h
      simp only [Option.some.injEq] at h
      have hrest : rest = [] := listMaxD_eq_none.mp hr
      subst hrest
      rcases List.mem_singleton.mp hx with rfl
      rw [← h]
      exact Date.le_refl x
    | some m2 =>
      rw [hr] at h
      simp only [Option.some.injEq] at h
      rcases List.mem_cons.mp hx with rfl | hx2
      · rw [← h]; exact le_maxD_left x m2
      · rw [← h]
        exact Date.le_trans (ih hr x hx2) (le_maxD_right d m2)

/- A nonempty list has a SQL maximum. -/
theorem listMaxD_of_ne_nil {l : List Date} (h : l ≠ []) : ∃ m, listMaxD l = some m := by
  cases hr : listMaxD l with
  | none => exact absurd (listMaxD_eq_none.mp hr) h
  | some m => exact ⟨m, rfl⟩

/- Concatenation distributes over list flattening. -/
theorem flatMapL_append {α β : Type} (f : α → List β) (l1 l2 : List α) :
    flatMapL f (l1 ++ l2) = flatMapL f l1 ++ flatMapL f l2 := by
  induction l1 with
  | nil => simp [flatMapL]
  | cons a l1 ih => simp [flatMapL, ih]

/- Flattening respects pointwise equality of the emitted lists. -/
theorem flatMapL_congr {α β : Type} {f g : α → List β} :
    ∀ {l : List α}, (∀ a ∈ l, f a = g a) → flatMapL f l = flatMapL g l := by
  intro l
  induction l with
  | nil => intro _; rfl
  | cons a l ih =>
    intro h
    show f a ++ flatMapL f l = g a ++ flatMapL g l
    rw [h a (List.mem_cons_self a l), ih (fun b hb => h b (List.mem_cons_of_mem a hb))]

/- A flattening of empty lists is empty. -/
theorem flatMapL_eq_nil {α β : Type} {f : α → List β} :
    ∀ {l : List α}, (∀ a ∈ l, f a = []) → flatMapL f l = [] := by
  intro l
  induction l with
  | nil => intro _; rfl
  | cons a l ih =>
    intro h
    show f a ++ flatMapL f l = []
    rw [h a (List.mem_cons_self a l), ih (fun b hb => h b (List.mem_cons_of_mem a hb))]
    rfl

/- Filtering commutes with list flattening. -/
theorem filter_flatMapL {α β : Type} (p : β → Bool) (f : α → List β) :
    ∀ (l : List α), (flatMapL f l).filter p = flatMapL (fun a => (f a).filter p) l := by
  intro l
  induction l with
  | nil => rfl
  | cons a l ih =>
    show (f a ++ flatMapL f l).filter p = (f a).filter p ++ flatMapL (fun a => (f a).filter p) l
    rw [List.filter_append, ih]

/- Every instance emitted for a schedule carries the user and the schedule's
id. -/
theorem mem_emitFor {sch : Schedule} {txns : List Txn} {user : String} {horizon : Date}
    {t : Txn} (ht : t ∈ emitFor sch txns user horizon) :
    t.user_id = user ∧ t.schedule_id = some sch.schedule_id := by
  simp only [emitFor, List.mem_map] at ht
  obtain ⟨d, _, rfl⟩ := ht
  exact ⟨rfl, rfl⟩

/- Reading back the dates of instances built on a list of dates gives the
list itself. -/
theorem map_date_map_mkInstance (sch : Schedule) (user : String) :
    ∀ l : List Date, (l.map (mkInstance sch user)).map (fun t => t.date) = l := by
  intro l
  induction l with
  | nil => rfl
  | cons d rest ih => simp [mkInstance, ih]

/- The dates of the emitted instances are exactly the emitted dates. -/
theorem emitFor_map_date (sch : Schedule) (txns : List Txn) (user : String) (horizon : Date) :
    (emitFor sch txns user horizon).map (fun t => t.date)
      = emittedDatesFor sch txns user horizon :=
  map_date_map_mkInstance sch user _

/- Instances emitted for a different schedule id never match a schedule's
watermark filter. -/
theorem emitFor_filter_ne {sch : Schedule} {txns : List Txn} {user : String} {horizon : Date}
    {user2 : String} {sid : Nat} (h : sch.schedule_id ≠ sid) :
    (emitFor sch txns user horizon).filter
      (fun t => t.user_id == user2 && t.schedule_id == some sid) = [] := by
  rw [List.filter_eq_nil_iff]
  intro t ht
  obtain ⟨_, hsid⟩ := mem_emitFor ht
  simp [hsid, h]

/- Instances emitted for a schedule all match its own watermark filter. -/
theorem emitFor_filter_self {sch : Schedule} {txns : List Txn} {user : String}
    {horizon : Date} :
    (emitFor sch txns user horizon).filter
      (fun t => t.user_id == user && t.schedule_id == some sch.schedule_id)
      = emitFor sch txns user horizon := by
  rw [List.filter_eq_self]
  intro t ht
  obtain ⟨hu, hsid⟩ := mem_emitFor ht
  simp [hu, hsid]

/- Appending transactions that do not match the watermark filter leaves the
watermark unchanged. -/
theorem getLastGeneratedDate_append {txns extra : List Txn} {user : String} {sid : Nat}
    (h : ∀ t ∈ extra, (t.user_id == user && t.schedule_id == some sid) = false) :
    getLastGeneratedDate (txns ++ extra) user sid = getLastGeneratedDate txns user sid := by
  unfold getLastGeneratedDate
  rw [List.filter_append]
  have hnil : extra.filter (fun t => t.user_id == user && t.schedule_id == some sid) = [] := by
    rw [List.filter_eq_nil_iff]
    intro t ht
    simp [h t ht]
  rw [hnil, List.append_nil]

/- The emitted dates depend on the persisted state only through the
schedule's watermark. -/
theorem emittedDatesFor_congr {sch : Schedule} {t1 t2 : List Txn} {user : String}
    {horizon : Date}
    (h : getLastGeneratedDate t1 user sch.schedule_id
      = getLastGeneratedDate t2 user sch.schedule_id) :
    emittedDatesFor sch t1 user horizon = emittedDatesFor sch t2 user horizon := by
  unfold emittedDatesFor
  rw [h]

/- The emitted instances depend on the persisted state only through the
schedule's watermark. -/
theorem emitFor_congr {sch : Schedule} {t1 t2 : List Txn} {user : String} {horizon : Date}
    (h : getLastGeneratedDate t1 user sch.schedule_id
      = getLastGeneratedDate t2 user sch.schedule_id) :
    emitFor sch t1 user horizon = emitFor sch t2 user horizon := by
  unfold emitFor
  rw [emittedDatesFor_congr h]

/- Appending transactions that do not match the schedule's watermark filter
does not change what it emits. -/
theorem emitFor_append {sch : Schedule} {txns extra : List Txn} {user : String}
    {horizon : Date}
    (h : ∀ t ∈ extra, (t.user_id == user && t.schedule_id == some sch.schedule_id) = false) :
    emitFor sch (txns ++ extra) user horizon = emitFor sch txns user horizon :=
  emitFor_congr (getLastGeneratedDate_append h)

/- Unfolding for the empty per-schedule loop. -/
theorem projectLoop_nil (user : String) (horizon : Date) (txns : List Txn) :
    projectLoop user horizon [] txns = txns := rfl

/- Unfolding for the per-schedule loop. -/
theorem projectLoop_cons (user : String) (horizon : Date) (sch : Schedule)
    (rest : List Schedule) (txns : List Txn) :
    projectLoop user horizon (sch :: rest) txns
      = projectLoop user horizon rest (txns ++ emitFor sch txns user horizon) := rfl

/- With pairwise distinct schedule ids (the primary key guarantee), the
projection run appends, for each schedule, exactly the instances computed from
the initial state: schedules are processed independently. -/
theorem projectLoop_eq (user : String) (horizon : Date) :
    ∀ (scheds : List Schedule), (scheds.map (fun s => s.schedule_id)).Nodup →
    ∀ txns, projectLoop user horizon scheds txns
      = txns ++ flatMapL (fun s => emitFor s txns user horizon) scheds := by
  intro scheds
  induction scheds with
  | nil => intro _ txns; rw [projectLoop_nil]; exact (List.append_nil txns).symm
  | cons sch rest ih =>
    intro hnd txns
    rw [List.map_cons] at hnd
    obtain ⟨hnm, hnd2⟩ := List.nodup_cons.mp hnd
    rw [projectLoop_cons, ih hnd2]
    have hE : ∀ s ∈ rest,
        emitFor s (txns ++ emitFor sch txns user horizon) user horizon
          = emitFor s txns user horizon := by
      intro s hs
      apply emitFor_append
      intro t ht
      obtain ⟨hu, hsid⟩ := mem_emitFor ht
      have hne : sch.schedule_id ≠ s.schedule_id := by
        intro he
        apply hnm
        rw [he]
        exact List.mem_map_of_mem _ hs
      simp [hsid, hne]
    rw [flatMapL_congr hE, List.append_assoc]
    rfl

/- Every date the loop emits is valid, the cursor being valid. -/
theorem genLoopF_mem_valid {f : String} {S B : Date} :
    ∀ (n : Nat) {c : Date}, c.Valid → ∀ x ∈ genLoopF f S B n c, x.Valid := by
  intro n
  induction n with
  | zero => intro c _ x hx; cases hx
  | succ n ih =>
    intro c hc x hx
    rw [genLoopF_succ] at hx
    by_cases hg : c ≤ B
    · rw [if_pos hg] at hx
      rcases List.mem_append.mp hx with h1 | h2
      · by_cases hS : S ≤ c
        · rw [if_pos hS] at h1
          rcases List.mem_singleton.mp h1 with rfl
          exact hc
        · rw [if_neg hS] at h1; cases h1
      · cases hst : stepOf? f with
        | none => rw [hst] at h2; cases h2
        | some st =>
          rw [hst] at h2
          exact ih (stepOf?_valid hst hc) x h2
    · rw [if_neg hg] at hx; cases hx

/- Every emitted date is valid, the cursor being valid. -/
theorem emittedDates_mem_valid {f : String} {S B c : Date} (hc : c.Valid) {x : Date}
    (hx : x ∈ emittedDates f S B c) : x.Valid :=
  genLoopF_mem_valid _ hc x hx

/- The loop end bound is valid whenever the horizon and the optional end date
are. -/
theorem loopEndOf_valid {horizon : Date} (hH : horizon.Valid) {e : Option Date}
    (hE : ∀ d, e = some d → d.Valid) : (loopEndOf horizon e).Valid := by
  cases e with
  | none => exact hH
  | some d =>
    show (if d < horizon then d else horizon).Valid
    split
    · exact hE d rfl
    · exact hH

/- With a recognized frequency, the cursor steps once from the watermark. -/
theorem cursorInit_some {f : String} {st : Date → Date} (hf : stepOf? f = some st)
    (S w : Date) : cursorInit f S (some w) = st w := by
  unfold cursorInit
  rw [hf]

/- The initial cursor is valid whenever the start date and the watermark
are. -/
theorem cursorInit_valid {f : String} {S : Date} (hS : S.Valid) {w : Option Date}
    (hw : ∀ d, w = some d → d.Valid) : (cursorInit f S w).Valid := by
  cases w with
  | none => exact hS
  | some d =>
    unfold cursorInit
    cases hst : stepOf? f with
    | none => exact hw d rfl
    | some st => exact stepOf?_valid hst (hw d rfl)

/- The watermark of a schedule is a transaction date, hence valid when all
stored dates are. -/
theorem getLastGeneratedDate_valid {txns : List Txn} {user : String} {sid : Nat} {w : Date}
    (h : getLastGeneratedDate txns user sid = some w)
    (htx : ∀ t ∈ txns, t.date.Valid) : w.Valid := by
  have hmem := listMaxD_mem h
  simp only [List.mem_map] at hmem
  obtain ⟨t, ht, rfl⟩ := hmem
  exact htx t (List.mem_of_mem_filter ht)

/- Core of the idempotence argument: once the watermark of a schedule is the
maximum over its previously stored dates together with the dates of a
first projection pass, a second pass emits nothing (recognized frequency). -/
theorem emittedDatesFor_twice_nil
    {sch : Schedule} {txns state1 : List Txn} {user : String} {horizon : Date}
    {st : Date → Date} (hf : stepOf? sch.frequency = some st)
    (hS : sch.start_date.Valid)
    (hE : ∀ e, sch.end_date = some e → e.Valid)
    (hH : horizon.Valid)
    (htx : ∀ t ∈ txns, t.date.Valid)
    (hlast : getLastGeneratedDate state1 user sch.schedule_id
      = listMaxD (((txns.filter (fun t => t.user_id == user &&
          t.schedule_id == some sch.schedule_id)).map (fun t => t.date))
        ++ emittedDatesFor sch txns user horizon)) :
    emittedDatesFor sch state1 user horizon = [] := by
  have hB : (loopEndOf horizon sch.end_date).Valid := loopEndOf_valid hH hE
  have hc0 : (cursorInit sch.frequency sch.start_date
      (getLastGeneratedDate txns user sch.schedule_id)).Valid :=
    cursorInit_valid hS (fun d hd => getLastGeneratedDate_valid hd htx)
  have hLv : ∀ x ∈ (txns.filter (fun t => t.user_id == user &&
      t.schedule_id == some sch.schedule_id)).map (fun t => t.date), x.Valid := by
    intro x hx
    simp only [List.mem_map] at hx
    obtain ⟨t, ht, rfl⟩ := hx
    exact htx t (List.mem_of_mem_filter ht)
  have hDv : ∀ x ∈ emittedDatesFor sch txns user horizon, x.Valid := by
    intro x hx
    exact emittedDates_mem_valid hc0 hx
  by_cases hD : emittedDatesFor sch txns user horizon = []
  · have heq : getLastGeneratedDate state1 user sch.schedule_id
        = getLastGeneratedDate txns user sch.schedule_id := by
      rw [hlast, hD, List.append_nil]
      rfl
    rw [emittedDatesFor_congr heq]
    exact hD
  · obtain ⟨e, he⟩ := listMaxD_of_ne_nil hD
    have he_mem : e ∈ emittedDatesFor sch txns user horizon := listMaxD_mem he
    have he_ub : ∀ x ∈ emittedDatesFor sch txns user horizon, x ≤ e := listMaxD_ub he
    have he_v : e.Valid := hDv e he_mem
    obtain ⟨⟨k, hk⟩, hSe, heB⟩ := (emittedDates_mem_iff hf hc0 hB e).mp he_mem
    have hstegt : loopEndOf horizon sch.end_date < st e := by
      by_contra hcon
      have hle : st e ≤ loopEndOf horizon sch.end_date := Date.not_lt.mp hcon
      have hmem2 : st e ∈ emittedDatesFor sch txns user horizon := by
        apply (emittedDates_mem_iff hf hc0 hB (st e)).mpr
        refine ⟨⟨k + 1, ?_⟩, ?_, hle⟩
        · rw [hk]
          exact (Function.iterate_succ_apply' st k _).symm
        · exact Date.le_trans hSe (Date.le_of_lt (stepOf?_lt hf he_v))
      exact Date.lt_irrefl (st e)
        (Date.lt_of_le_of_lt (he_ub (st e) hmem2) (stepOf?_lt hf he_v))
    have hLD : ((txns.filter (fun t => t.user_id == user &&
        t.schedule_id == some sch.schedule_id)).map (fun t => t.date))
        ++ emittedDatesFor sch txns user horizon ≠ [] := by
      intro hnil
      exact hD (List.append_eq_nil.mp hnil).2
    obtain ⟨m, hm⟩ := listMaxD_of_ne_nil hLD
    have hm_mem := listMaxD_mem hm
    have hm_ub := listMaxD_ub hm
    have hm_v : m.Valid := by
      rcases List.mem_append.mp hm_mem with h | h
      · exact hLv m h
      · exact hDv m h
    have hem : e ≤ m := hm_ub e (List.mem_append.mpr (Or.inr he_mem))
    have hgt : loopEndOf horizon sch.end_date < st m :=
      Date.lt_of_lt_of_le hstegt (stepOf?_mono hf he_v hm_v hem)
    have hcur : cursorInit sch.frequency sch.start_date
        (getLastGeneratedDate state1 user sch.schedule_id) = st m := by
      rw [hlast, hm, cursorInit_some hf]
    show emittedDates sch.frequency sch.start_date (loopEndOf horizon sch.end_date)
        (cursorInit sch.frequency sch.start_date
          (getLastGeneratedDate state1 user sch.schedule_id)) = []
    rw [hcur]
    exact emittedDates_nil_of_gt (stepOf?_valid hf hm_v) hB hgt

/- Unfolding lemma for the per-schedule emission. -/
theorem emitFor_def (sch : Schedule) (txns : List Txn) (user : String) (horizon : Date) :
    emitFor sch txns user horizon
      = (emittedDatesFor sch txns user horizon).map (mkInstance sch user) := rfl

/- Among schedules with pairwise distinct ids, filtering a first pass's
emissions by one schedule's watermark filter retains exactly that schedule's
emissions. -/
theorem flatMapL_filter_single (txns : List Txn) (user : String) (horizon : Date)
    {s : Schedule} :
    ∀ {F : List Schedule}, (F.map (fun s2 => s2.schedule_id)).Nodup → s ∈ F →
    flatMapL (fun s2 => (emitFor s2 txns user horizon).filter
      (fun t => t.user_id == user && t.schedule_id == some s.schedule_id)) F
      = emitFor s txns user horizon := by
  intro F
  induction F with
  | nil => intro _ hs; cases hs
  | cons s0 rest ih =>
    intro hnd hs
    rw [List.map_cons] at hnd
    obtain ⟨hnm, hnd2⟩ := List.nodup_cons.mp hnd
    rcases List.mem_cons.mp hs with rfl | hs2
    · show (emitFor s txns user horizon).filter _ ++ flatMapL _ rest = _
      rw [emitFor_filter_self]
      have hrest : flatMapL (fun s2 => (emitFor s2 txns user horizon).filter
          (fun t => t.user_id == user && t.schedule_id == some s.schedule_id)) rest
          = [] := by
        apply flatMapL_eq_nil
        intro s2 hs2
        apply emitFor_filter_ne
        intro he
        apply hnm
        rw [← he]
        exact List.mem_map_of_mem _ hs2
      rw [hrest, List.append_nil]
    · show (emitFor s0 txns user horizon).filter _ ++ flatMapL _ rest = _
      have hne : s0.schedule_id ≠ s.schedule_id := by
        intro he
        apply hnm
        rw [he]
        exact List.mem_map_of_mem _ hs2
      rw [emitFor_filter_ne hne, ih hnd2 hs2]
      rfl

/- After a full first pass, a schedule's watermark is the maximum of its
previously stored dates and the dates the pass emitted for it. -/
theorem getLastGeneratedDate_after_run
    {F : List Schedule} (hnd : (F.map (fun s2 => s2.schedule_id)).Nodup)
    {s : Schedule} (hs : s ∈ F) (txns : List Txn) (user : String) (horizon : Date) :
    getLastGeneratedDate (txns ++ flatMapL (fun s2 => emitFor s2 txns user horizon) F)
        user s.schedule_id
      = listMaxD (((txns.filter (fun t => t.user_id == user &&
          t.schedule_id == some s.schedule_id)).map (fun t => t.date))
        ++ emittedDatesFor s txns user horizon) := by
  unfold getLastGeneratedDate
  rw [List.filter_append, filter_flatMapL, flatMapL_filter_single txns user horizon hnd hs,
    List.map_append, emitFor_map_date]

/- C4 (amended): with every frequency recognized, running the projection twice
with the same horizon leaves the database exactly as a single run does. -/
theorem claim_C4_idempotent
    (db : DB) (user : String) (horizon : Date)
    (hids : (db.schedules.map (fun s => s.schedule_id)).Nodup)
    (hrec : ∀ s ∈ db.schedules, s.user_id = user → recognizedFreq s.frequency = true)
    (hval : ∀ s ∈ db.schedules, s.user_id = user →
      (s.start_date.Valid ∧ ∀ e, s.end_date = some e → e.Valid))
    (htx : ∀ t ∈ db.transactions, t.date.Valid)
    (hH : horizon.Valid) :
    runProjectionCore (runProjectionCore db user horizon) user horizon
      = runProjectionCore db user horizon := by
  have hndF : ((db.schedules.filter (fun s => s.user_id == user)).map
      (fun s2 => s2.schedule_id)).Nodup :=
    List.Nodup.sublist (List.Sublist.map _ (List.filter_sublist db.schedules)) hids
  have hmemF : ∀ s ∈ db.schedules.filter (fun s2 => s2.user_id == user),
      s ∈ db.schedules ∧ s.user_id = user := by
    intro s hsmem
    have h2 := List.mem_filter.mp hsmem
    exact ⟨h2.1, by simpa using h2.2⟩
  have h1 : runProjectionCore db user horizon
      = { db with transactions := (db.transactions
          ++ flatMapL (fun s => emitFor s db.transactions user horizon)
            (db.schedules.filter (fun s => s.user_id == user))) } := by
    unfold runProjectionCore getScheduledTransactions
    rw [projectLoop_eq user horizon _ hndF]
  rw [h1]
  unfold runProjectionCore getScheduledTransactions
  dsimp only
  rw [projectLoop_eq user horizon _ hndF]
  have h2 : flatMapL (fun s => emitFor s (db.transactions
      ++ flatMapL (fun s2 => emitFor s2 db.transactions user horizon)
        (db.schedules.filter (fun s => s.user_id == user))) user horizon)
      (db.schedules.filter (fun s => s.user_id == user)) = [] := by
    apply flatMapL_eq_nil
    intro s hsF
    obtain ⟨hsdb, hsuser⟩ := hmemF s hsF
    obtain ⟨hs1, hs2⟩ := hval s hsdb hsuser
    have hrecs := hrec s hsdb hsuser
    unfold recognizedFreq at hrecs
    obtain ⟨st, hst⟩ := Option.isSome_iff_exists.mp hrecs
    rw [emitFor_def, emittedDatesFor_twice_nil hst hs1 hs2 hH htx
      (getLastGeneratedDate_after_run hndF hsF db.transactions user horizon)]
    rfl
  rw [h2, List.append_nil]

/- C3 (amended): a rule with an unrecognized frequency halts after the first
loop iteration: it contributes at most one emitted instance, dated at its
initial cursor and emitted exactly when that cursor lies between the rule's
start date and the effective end bound, while every other rule of the run
projects exactly as it would without the malformed rule. -/
theorem claim_C3_unknown_frequency
    (db : DB) (user : String) (horizon : Date) (pre post : List Schedule) (bad : Schedule)
    (hsch : db.schedules = pre ++ bad :: post)
    (huser : ∀ s ∈ db.schedules, s.user_id = user)
    (hids : (db.schedules.map (fun s => s.schedule_id)).Nodup)
    (hbad : recognizedFreq bad.frequency = false)
    (hS : bad.start_date.Valid)
    (hE : ∀ e, bad.end_date = some e → e.Valid)
    (htx : ∀ t ∈ db.transactions, t.date.Valid)
    (hH : horizon.Valid) :
    ((runProjectionCore db user horizon).transactions
      = db.transactions
        ++ (flatMapL (fun s => emitFor s db.transactions user horizon) pre
          ++ (emitFor bad db.transactions user horizon
            ++ flatMapL (fun s => emitFor s db.transactions user horizon) post)))
    ∧ (emitFor bad db.transactions user horizon
      = if bad.start_date ≤ cursorInit bad.frequency bad.start_date
            (getLastGeneratedDate db.transactions user bad.schedule_id)
          ∧ cursorInit bad.frequency bad.start_date
            (getLastGeneratedDate db.transactions user bad.schedule_id)
            ≤ loopEndOf horizon bad.end_date
        then [mkInstance bad user (cursorInit bad.frequency bad.start_date
            (getLastGeneratedDate db.transactions user bad.schedule_id))]
        else [])
    ∧ ((runProjectionCore { db with schedules := pre ++ post } user horizon).transactions
      = db.transactions
        ++ (flatMapL (fun s => emitFor s db.transactions user horizon) pre
          ++ flatMapL (fun s => emitFor s db.transactions user horizon) post)) := by
  have hfil : db.schedules.filter (fun s => s.user_id == user) = db.schedules :=
    List.filter_eq_self.mpr (fun s hs => by simp [huser s hs])
  refine ⟨?_, ?_, ?_⟩
  · unfold runProjectionCore getScheduledTransactions
    dsimp only
    rw [hfil, projectLoop_eq user horizon db.schedules hids db.transactions, hsch,
      flatMapL_append]
    rfl
  · have hst : stepOf? bad.frequency = none := by
      unfold recognizedFreq at hbad
      cases hstc : stepOf? bad.frequency with
      | none => rfl
      | some st => rw [hstc] at hbad; simp at hbad
    have hcv : (cursorInit bad.frequency bad.start_date
        (getLastGeneratedDate db.transactions user bad.schedule_id)).Valid :=
      cursorInit_valid hS (fun d hd => getLastGeneratedDate_valid hd htx)
    have hB : (loopEndOf horizon bad.end_date).Valid := loopEndOf_valid hH hE
    rw [emitFor_def]
    unfold emittedDatesFor
    rw [emittedDates_unknown hst hcv hB]
    by_cases h1 : cursorInit bad.frequency bad.start_date
        (getLastGeneratedDate db.transactions user bad.schedule_id)
        ≤ loopEndOf horizon bad.end_date
    · by_cases h2 : bad.start_date ≤ cursorInit bad.frequency bad.start_date
          (getLastGeneratedDate db.transactions user bad.schedule_id)
      · rw [if_pos h1, if_pos h2, if_pos ⟨h2, h1⟩]
        rfl
      · rw [if_pos h1, if_neg h2, if_neg (fun hc => h2 hc.1)]
        rfl
    · rw [if_neg h1, if_neg (fun hc => h1 hc.2)]
      rfl
  · have huser2 : ∀ s ∈ pre ++ post, s.user_id = user := by
      intro s hs
      apply huser
      rw [hsch]
      rcases List.mem_append.mp hs with h | h
      · exact List.mem_append.mpr (Or.inl h)
      · exact List.mem_append.mpr (Or.inr (List.mem_cons_of_mem bad h))
    have hids2 : ((pre ++ post).map (fun s => s.schedule_id)).Nodup := by
      have hsub : List.Sublist (pre ++ post) (pre ++ bad :: post) :=
        List.Sublist.append (List.Sublist.refl pre) (List.sublist_cons_self bad post)
      rw [hsch] at hids
      exact List.Nodup.sublist (List.Sublist.map _ hsub) hids
    unfold runProjectionCore getScheduledTransactions
    dsimp only
    have hfil2 : (pre ++ post).filter (fun s => s.user_id == user) = pre ++ post :=
      List.filter_eq_self.mpr (fun s hs => by simp [huser2 s hs])
    rw [hfil2, projectLoop_eq user horizon _ hids2, flatMapL_append]

/- C3 counterexample: in a projection run with a daily rule and a rule of
unrecognized frequency `"yearly"`, the malformed rule contributes one emitted
instance, not zero. -/
theorem claim_C3_counterexample :
    ((runProjectionCore dbMixedFreq "u" ⟨2024, 3, 1⟩).transactions.filter
      (fun t => t.schedule_id == some 2)).length = 1 := by decide

/- C3 witness: the amended claim evaluated on the concrete mixed run: the
yearly rule emits exactly its start-date instance. -/
theorem claim_C3_witness :
    emitFor schYearly dbMixedFreq.transactions "u" ⟨2024, 3, 1⟩
      = [mkInstance schYearly "u" ⟨2024, 1, 1⟩] :=
  Eq.trans
    ((claim_C3_unknown_frequency dbMixedFreq "u" ⟨2024, 3, 1⟩ [schDaily] [] schYearly
      rfl (by decide) (by decide) (by decide) (by decide)
      (fun e he => nomatch he) (by decide) (by decide)).2.1)
    (by decide)

/- C4 counterexample: with a single rule of unrecognized frequency `"yearly"`,
running the projection twice adds a duplicate instance that a single run does
not: the claim fails for such a rule set. -/
theorem claim_C4_counterexample :
    ((runProjectionCore (runProjectionCore dbYearlyOnly "u" ⟨2024, 3, 1⟩) "u"
        ⟨2024, 3, 1⟩).transactions.length = 2)
    ∧ ((runProjectionCore dbYearlyOnly "u" ⟨2024, 3, 1⟩).transactions.length = 1)
    ∧ runProjectionCore (runProjectionCore dbYearlyOnly "u" ⟨2024, 3, 1⟩) "u" ⟨2024, 3, 1⟩
      ≠ runProjectionCore dbYearlyOnly "u" ⟨2024, 3, 1⟩ := by decide

/- C4 witness: the amended idempotence applied to the concrete daily rule. -/
theorem claim_C4_witness :
    runProjectionCore (runProjectionCore dbDailyOnly "u" ⟨2024, 1, 3⟩) "u" ⟨2024, 1, 3⟩
      = runProjectionCore dbDailyOnly "u" ⟨2024, 1, 3⟩ :=
  claim_C4_idempotent dbDailyOnly "u" ⟨2024, 1, 3⟩ (by decide) (by decide)
    (by
      intro s hs _
      rcases List.mem_singleton.mp hs with rfl
      exact ⟨by decide, fun e he => nomatch he⟩)
    (by intro t ht; cases ht) (by decide)

/- C5: projected from an empty prior state, the set of emitted dates of a rule
with a recognized frequency is exactly the orbit of its start date under the
frequency step, clipped to the window from the start date to the effective
end bound, with no date emitted twice. -/
theorem claim_C5_orbit
    (sch : Schedule) (txns : List Txn) (user : String) (horizon : Date)
    (st : Date → Date) (hst : stepOf? sch.frequency = some st)
    (hw : getLastGeneratedDate txns user sch.schedule_id = none)
    (hS : sch.start_date.Valid)
    (hE : ∀ e, sch.end_date = some e → e.Valid)
    (hH : horizon.Valid) :
    (∀ x : Date, x ∈ emittedDatesFor sch txns user horizon ↔
      ((∃ k, x = st^[k] sch.start_date) ∧ sch.start_date ≤ x ∧
        x ≤ loopEndOf horizon sch.end_date))
    ∧ (emittedDatesFor sch txns user horizon).Nodup := by
  have hcur : cursorInit sch.frequency sch.start_date
      (getLastGeneratedDate txns user sch.schedule_id) = sch.start_date := by
    rw [hw]
    rfl
  have hB : (loopEndOf horizon sch.end_date).Valid := loopEndOf_valid hH hE
  constructor
  · intro x
    unfold emittedDatesFor
    rw [hcur]
    exact emittedDates_mem_iff hst hS hB x
  · unfold emittedDatesFor
    rw [hcur]
    exact emittedDates_nodup hS

/- C5 witness: the monthly rule starting 2024-01-31 projected to 2024-04-15
from an empty state emits no date twice. -/
theorem claim_C5_witness :
    (emittedDatesFor schMonthly [] "u" ⟨2024, 4, 15⟩).Nodup :=
  (claim_C5_orbit schMonthly [] "u" ⟨2024, 4, 15⟩ (addMonths 1) rfl rfl (by decide)
    (fun e he => nomatch he) (by decide)).2

/- C7: per bucket the aggregator's credits are the sum of the strictly
positive amounts, its debits the sum of the amounts at most 0 (an amount of
exactly 0 is routed to debits, never dropped), net change is their sum, and
the bucket is actual exactly when it is empty or every instance in it is
confirmed. -/
theorem claim_C7_bucket (b : List Txn) :
    credits b = ((b.filter (fun t => decide (0 < t.amount))).map (fun t => t.amount)).sum
    ∧ debits b = ((b.filter (fun t => decide (t.amount ≤ 0))).map (fun t => t.amount)).sum
    ∧ netChange b = credits b + debits b
    ∧ (bucketIsActual b = true ↔ (b = [] ∨ ∀ t ∈ b, t.is_confirmed = 1)) := by
  refine ⟨?_, ?_, rfl, ?_⟩
  · induction b with
    | nil => rfl
    | cons t rest ih =>
      simp only [credits] at ih ⊢
      by_cases hp : 0 < t.amount
      · simp [List.filter_cons, hp, ih]
      · simp [List.filter_cons, hp, ih]
  · induction b with
    | nil => rfl
    | cons t rest ih =>
      simp only [debits] at ih ⊢
      by_cases hp : t.amount ≤ 0
      · simp [List.filter_cons, hp, ih]
      · simp [List.filter_cons, hp, ih]
  · simp only [bucketIsActual, Bool.or_eq_true, List.all_eq_true, List.isEmpty_iff,
      beq_iff_eq]
    tauto

/- C8: with no settings row for the owner, the calendar computation returns
the empty sequence instead of failing, whatever the view window. -/
theorem claim_C8_no_settings (db : DB) (user : String) (viewStart viewEnd : Date)
    (h : getSettings db user = none) :
    getCalendarData db user viewStart viewEnd = [] := by
  simp only [getCalendarData, h]

/- C8 witness: the empty database has no settings and yields an empty
calendar. -/
theorem claim_C8_witness :
    getCalendarData dbNoSettings "u" ⟨2024, 1, 1⟩ ⟨2024, 1, 3⟩ = [] :=
  claim_C8_no_settings dbNoSettings "u" ⟨2024, 1, 1⟩ ⟨2024, 1, 3⟩ rfl

/- C9: every returned day strictly before the settings start date has balance
0 and is flagged actual, whatever instances are dated there. -/
theorem claim_C9_pre_start
    (db : DB) (user : String) (viewStart viewEnd : Date) (settings : SettingsRow)
    (hset : getSettings db user = some settings)
    (r : DaySummary) (hr : r ∈ getCalendarData db user viewStart viewEnd)
    (hlt : r.date < settings.start_date) :
    r.balance = 0 ∧ r.is_actual = true := by
  unfold getCalendarData at hr
  rw [hset] at hr
  simp only [List.mem_map] at hr
  obtain ⟨d, hd, heq⟩ := hr
  subst heq
  dsimp only at hlt
  constructor
  · dsimp only
    rw [if_neg (Date.not_le.mpr hlt)]
  · dsimp only
    simp [hlt]

/- C9 witness: in the concrete pre-start database, the day 2024-01-01 sits
before the start date 2024-01-03 and is returned with balance 0 and an actual
flag. -/
unseal Rat.add in
theorem claim_C9_witness :
    (⟨⟨2024, 1, 1⟩, 0, 0, 0, 0, true⟩ : DaySummary).balance = 0
    ∧ (⟨⟨2024, 1, 1⟩, 0, 0, 0, 0, true⟩ : DaySummary).is_actual = true :=
  claim_C9_pre_start dbPreStart "u" ⟨2024, 1, 1⟩ ⟨2024, 1, 3⟩ ⟨"u", 100, ⟨2024, 1, 3⟩⟩
    rfl ⟨⟨2024, 1, 1⟩, 0, 0, 0, 0, true⟩ (by decide) (by decide)

/- C1 evaluation at the failing input: with start date 2024-01-01, balance
100 and a confirmed transaction of amount 10 on 2024-01-01, a view window
starting 2024-01-02 reports balance 100 on every day — the transaction's net
change before the view window is dropped — while the same data viewed from
2024-01-01 reports 110, so the balance claimed by the prefix-sum formula
(110) is not produced by the code for the later window. -/
unseal Rat.add in
theorem claim_C1_balance_window_eval :
    (getCalendarData dbBalWin "u" ⟨2024, 1, 2⟩ ⟨2024, 1, 3⟩).map (fun r => r.balance)
      = [100, 100]
    ∧ (getCalendarData dbBalWin "u" ⟨2024, 1, 1⟩ ⟨2024, 1, 3⟩).map (fun r => r.balance)
      = [110, 110, 110] := by decide

/- C2 evaluation at the failing input: with a confirmed transaction only on
2024-01-02, the in-view days 2024-01-01, 2024-01-03 and 2024-01-04 have no
instances and default to credits = debits = net_change = 0, yet their
is_actual flag is false (the merge fills the missing aggregate with 0, and
0 == True fails), contradicting the claimed default of true. -/
unseal Rat.add in
theorem claim_C2_empty_day_eval :
    (getCalendarData dbEmptyDay "u" ⟨2024, 1, 1⟩ ⟨2024, 1, 4⟩).map
      (fun r => (r.credits, r.debits, r.net_change, r.is_actual))
      = [(0, 0, 0, false), (5, 0, 5, true), (0, 0, 0, false), (0, 0, 0, false)] := by
  decide

/- C6 evaluation at the failing input: deleting rule 1 with the cascade
option first fires the `ON DELETE SET NULL` action, so its unconfirmed
generated instance (id 1) survives with a nulled schedule id instead of being
removed; the confirmed instance (id 2) and the other rule's instance (id 3)
also remain. -/
theorem claim_C6_cascade_eval :
    (deleteScheduledTransaction dbCascade "u" 1 true).transactions.map
      (fun t => (t.transaction_id, t.schedule_id, t.is_confirmed))
      = [(1, none, 0), (2, none, 1), (3, some 2, 0)] := by decide

/- A successful strptime parse consumes the whole ten-character string. -/
theorem parseDateChars_some_length {cs : List Char} {d : Date}
    (h : parseDateChars cs = some d) : cs.length = 10 := by
  rcases cs with _ | ⟨y1, _ | ⟨y2, _ | ⟨y3, _ | ⟨y4, _ | ⟨s1, _ | ⟨m1, _ | ⟨m2, _ |
    ⟨s2, _ | ⟨d1, _ | ⟨d2, rest⟩⟩⟩⟩⟩⟩⟩⟩⟩⟩
  · exact Option.noConfusion h
  · exact Option.noConfusion h
  · exact Option.noConfusion h
  · exact Option.noConfusion h
  · exact Option.noConfusion h
  · exact Option.noConfusion h
  · exact Option.noConfusion h
  · exact Option.noConfusion h
  · exact Option.noConfusion h
  · exact Option.noConfusion h
  · simp only [parseDateChars] at h
    by_cases hrest : rest.isEmpty = true
    · have hnil : rest = [] := List.isEmpty_iff.mp hrest
      subst hnil
      rfl
    · rw [if_neg hrest] at h
      exact Option.noConfusion h

/- A string whose length is not ten fails to parse. -/
theorem parseDateChars_none_of_length {cs : List Char} (h : cs.length ≠ 10) :
    parseDateChars cs = none := by
  cases hp : parseDateChars cs with
  | none => rfl
  | some d => exact absurd (parseDateChars_some_length hp) h

/- The horizon string always carries at least eleven characters: the ISO date
plus the `T00:00:00` time part. -/
theorem projectionEndDateStr_length (d : Date) :
    11 ≤ (projectionEndDateStr d).data.length := by
  unfold projectionEndDateStr isoOfDate
  simp only [String.data_append, List.length_append, List.length_cons, List.length_nil]
  omega

/- C10: for every calendar-view request whose start and end parameters parse
as dates, the horizon string handed to the projection is the two-years-ahead
`datetime.isoformat()` (with its `THH:MM:SS` part), its `%Y-%m-%d` parse
fails, and the endpoint answers with the error response. -/
theorem claim_C10_horizon_parse_error
    (db : DB) (user : String) (startStr endStr : String) (d1 d2 : Date)
    (_hstart : parseDateYMD startStr = some d1) (h2 : parseDateYMD endStr = some d2) :
    parseDateYMD (projectionEndDateStr d2) = none
    ∧ calendarDataEndpoint db user startStr endStr = Except.error calendarErrMsg := by
  have hnone : parseDateYMD (projectionEndDateStr d2) = none := by
    unfold parseDateYMD
    apply parseDateChars_none_of_length
    have := projectionEndDateStr_length d2
    omega
  refine ⟨hnone, ?_⟩
  simp only [calendarDataEndpoint, h2, runProjection, hnone]

/- C10 witness: the concrete request with start 2024-01-01 and end 2024-03-01
builds an unparsable horizon and receives the error response. -/
theorem claim_C10_witness :
    parseDateYMD (projectionEndDateStr ⟨2024, 3, 1⟩) = none
    ∧ calendarDataEndpoint dbNoSettings "u" "2024-01-01" "2024-03-01"
      = Except.error calendarErrMsg :=
  claim_C10_horizon_parse_error dbNoSettings "u" "2024-01-01" "2024-03-01"
    ⟨2024, 1, 1⟩ ⟨2024, 3, 1⟩ (by decide) (by decide)
